import Mathlib

/-!
Verification of `primes_up_to` (src/sieve.hpp): a templated Sieve of
Eratosthenes returning the vector of all primes `p` with `2 ≤ p ≤ n`.

The embedding is shallow and wrap-faithful:
* the `std::vector<bool>` sieve array is a table `Nat → Bool` with indexed
  reads and pointwise writes; a write is bounds-checked against the vector
  size (`updChk`), since an out-of-range `operator[]` is undefined
  behaviour, modelled as `none`;
* `std::size_t` values are natural numbers below `2^w`, where `w` is the
  bit width of `std::size_t` (a parameter of the model); every arithmetic
  operation the source performs on a `std::size_t` — the conversion
  `static_cast<std::size_t>(n)` on line 42, the vector size `N + 1` on
  line 48, `k*k`, `m + k`, `k + 1`, `n_primes + 1`, `m + 1` — is taken
  modulo `2^w`;
* each `for` loop becomes a recursion on the loop state, keeping its
  source guard.  A structural `fuel` argument bounds the number of
  iterations; the wrappers pass `2^w`.  For the loops whose control state
  is a single `std::size_t` variable (the marking loop on `m`, the tail
  and debug counting loops on their index), `2^w` guarded iterations mean
  a control state was revisited, so the source loop runs forever: fuel
  exhaustion (`none`) is exactly non-termination there.  The sweep and
  extraction loops exit within `N + 2` iterations whenever they exit at
  all, far below the fuel, and otherwise propagate `none`;
* the defensive `assert( k <= N )` in the extraction loop (line 93) is
  modelled by returning `none` when it would fail, so a `some` result
  means every sieve-array read in that loop had its index bounded by `N`.

With this model the source's wrap-around behaviour near the top of the
`std::size_t` range is visible: at `N = 2^w - 2` the marking loop for
`k = 2` wraps past `N` back to the even residues and never terminates; at
`N = 2^w - 1` the vector size `N + 1` wraps to `0` and the writes of
lines 49-50 are out of bounds; and at suitable `N` (e.g. `w = 6`,
`N = 60`, `k = 5`) a marking pass wraps, falsely unmarks primes, and the
function terminates with a wrong result.  The positive theorems are
proved on the wrap-free domain `N + √N < 2^w`, where every marking
position `m + k ≤ N + k ≤ N + √N` and the vector size `N + 1` stay below
`2^w`, making the run step-for-step equal to the ideal sieve.
-/

namespace Sieve

/-- Pointwise update of a boolean table: the raw effect of one indexed
write `v[i] = b` into the `std::vector<bool>` sieve array. -/
def upd (f : Nat → Bool) (i : Nat) (b : Bool) : Nat → Bool :=
  fun j => if j = i then b else f j

/-- One bounds-checked write `v[i] = b` into a `std::vector<bool>` of
size `S`: an index not below the size is out of range — undefined
behaviour, modelled as `none`. -/
def updChk (S : Nat) (f : Nat → Bool) (i : Nat) (b : Bool) : Option (Nat → Bool) :=
  if i < S then some (upd f i b) else none

/-- The sweep-loop guard `k <= N / k` (line 60), written with truncating
integer division exactly as in the source. -/
def sweepGuard (N k : Nat) : Bool :=
  decide (k ≤ N / k)

/-- The inner marking loop `for (m = k*k; m <= N; m += k) is_prime[m] = false;`
(lines 65-67).  The step `m += k` is `std::size_t` addition, i.e. addition
modulo `2^w`.  The control state is the single value `m < 2^w`, so if
`2^w` guarded iterations happen some state has been revisited and the
source loop runs forever: with the wrapper's fuel `2^w`, exhaustion
(`none`) models exactly that non-termination.  The write `is_prime[m]` is
guarded by `m <= N` and the vector has size `N + 1` whenever its
construction succeeded, so this write is always in range. -/
def markCore (w N k : Nat) : Nat → (Nat → Bool) → Nat → Option (Nat → Bool)
  | m, f, fuel + 1 =>
    if m ≤ N then markCore w N k ((m + k) % 2 ^ w) (upd f m false) fuel else some f
  | _, _, 0 => none

/-- The marking loop entered at position `m`, with fuel `2^w`. -/
def markMultiples (w N k m : Nat) (f : Nat → Bool) : Option (Nat → Bool) :=
  markCore w N k m f (2 ^ w)

/-- The sweep loop (lines 60-69): for each candidate `k` with `k <= N / k`,
if `is_prime[k]` still holds, count `k` and mark its multiples from `k*k`
on; `k*k`, `++k` and `++n_primes` are `std::size_t` operations, taken
modulo `2^w`.  Non-termination of an inner marking loop propagates as
`none`.  The sweep itself exits within `N + 2` candidates whenever its
guard ever fails (the guard is false for every `k > N`), so the wrapper
fuel `2^w > N + 1` is never exhausted on a run that would exit. -/
def sweepCore (w N : Nat) : (Nat → Bool) → Nat → Nat → Nat → Option ((Nat → Bool) × Nat × Nat)
  | f, np, k, fuel + 1 =>
    if sweepGuard N k then
      if f k then
        (markMultiples w N k ((k * k) % 2 ^ w) f).bind
          fun g => sweepCore w N g ((np + 1) % 2 ^ w) ((k + 1) % 2 ^ w) fuel
      else sweepCore w N f np ((k + 1) % 2 ^ w) fuel
    else some (f, np, k)
  | _, _, _, 0 => none

/-- The tail counting loop `for (; k <= N; ++k) if (is_prime[k]) ++n_primes;`
(lines 72-76), continuing from the sweep's final `k`; `++k` and
`++n_primes` wrap modulo `2^w`.  The control state is the single value
`k < 2^w`, so with fuel `2^w` exhaustion is exactly non-termination —
which really happens at `N = 2^w - 1`, where `k <= N` holds for every
representable `k`. -/
def tailCore (w N : Nat) (f : Nat → Bool) : Nat → Nat → Nat → Option Nat
  | np, k, fuel + 1 =>
    if k ≤ N then
      tailCore w N f (if f k then (np + 1) % 2 ^ w else np) ((k + 1) % 2 ^ w) fuel
    else some np
  | _, _, 0 => none

/-- The debug recount `for (i = 2; i <= N; ++i) if (is_prime[i]) ++check;`
(lines 79-83), with the same wrapping increments as the tail loop. -/
def checkCore (w N : Nat) (f : Nat → Bool) : Nat → Nat → Nat → Option Nat
  | c, i, fuel + 1 =>
    if i ≤ N then
      checkCore w N f (if f i then (c + 1) % 2 ^ w else c) ((i + 1) % 2 ^ w) fuel
    else some c
  | _, _, 0 => none

/-- The debug recount from `check = 0`, `i = 2`. -/
def checkLoop (w N : Nat) (f : Nat → Bool) : Option Nat :=
  checkCore w N f 0 2 (2 ^ w)

/-- The extraction loop (lines 91-98): as long as fewer than `np` primes
have been copied, check `k <= N` (the `assert` on line 93; `none` models
its failure, which would also be an out-of-bounds sieve read) and append
`k` to the output when `is_prime[k]`; `m++` and `++k` wrap modulo `2^w`. -/
def extractCore (w : Nat) (f : Nat → Bool) (N np : Nat) :
    Nat → Nat → List Nat → Nat → Option (List Nat)
  | m, k, acc, fuel + 1 =>
    if m < np then
      if k ≤ N then
        if f k then
          extractCore w f N np ((m + 1) % 2 ^ w) ((k + 1) % 2 ^ w) (acc ++ [k]) fuel
        else extractCore w f N np m ((k + 1) % 2 ^ w) acc fuel
      else none
    else some acc
  | _, _, _, 0 => none

/-- The extraction loop entered at `m` copied values and candidate `k`,
with fuel `2^w`; it exits (either normally or through the failed assert)
within `N + 2` iterations, below the fuel. -/
def extractLoop (w : Nat) (f : Nat → Bool) (N np m k : Nat) (acc : List Nat) :
    Option (List Nat) :=
  extractCore w f N np m k acc (2 ^ w)

/-- Lines 48-50: construct `is_prime(N + 1, true)` — the element count is
the `std::size_t` value `(N + 1) % 2^w` — then write `false` at indices 0
and 1.  For `N = 2^w - 1` the count wraps to `0` and for `N = 0` it is
`1`, so one of these two writes is out of bounds; both are checked. -/
def initFlags (w N : Nat) : Option (Nat → Bool) :=
  (updChk ((N + 1) % 2 ^ w) (fun _ => true) 0 false).bind
    fun f1 => updChk ((N + 1) % 2 ^ w) f1 1 false

/-- Lines 48-69: array construction followed by the sweep loop, from
`n_primes = 0`, `k = 2`. -/
def sweepOut (w N : Nat) : Option ((Nat → Bool) × Nat × Nat) :=
  (initFlags w N).bind fun f0 => sweepCore w N f0 0 2 (2 ^ w)

/-- Lines 48-76: the sieve phases up to and including the tail counting
loop; yields the final sieve array and the final prime counter. -/
def sieveAndCount (w N : Nat) : Option ((Nat → Bool) × Nat) :=
  (sweepOut w N).bind fun s =>
    (tailCore w N s.1 s.2.1 s.2.2 (2 ^ w)).bind fun np => some (s.1, np)

/-- The whole function `primes_up_to` (lines 30-101) for a `std::size_t`
of bit width `w`: inputs below 2 return the empty vector at line 39;
otherwise `N = static_cast<std::size_t>(n) = n % 2^w` (line 42) and the
sieve, count and extraction phases run; `none` is an execution that never
returns normally (an infinite loop or undefined behaviour). -/
def primes_up_to (w n : Nat) : Option (List Nat) :=
  if n < 2 then some []
  else
    (sieveAndCount w (n % 2 ^ w)).bind
      fun s => extractLoop w s.1 (n % 2 ^ w) s.2 0 2 []

/-! ### Specification-side definitions -/

/-- Kernel-computable trial-division primality test (specification side). -/
def primeB (p : Nat) : Bool :=
  decide (2 ≤ p) && (List.range p).all fun d => decide (d < 2) || decide (p % d ≠ 0)

/-- `flaggedCore f k c` lists, in increasing order, the `c` consecutive
indices `k, k+1, …, k+c-1` at which `f` holds (specification side). -/
def flaggedCore (f : Nat → Bool) : Nat → Nat → List Nat
  | _, 0 => []
  | k, c + 1 => if f k then k :: flaggedCore f (k + 1) c else flaggedCore f (k + 1) c

/-- The increasing list of indices in `[k, N]` at which `f` holds. -/
def flaggedList (f : Nat → Bool) (k N : Nat) : List Nat :=
  flaggedCore f k (N + 1 - k)

/-- The increasing list of all primes in `[2, N]`. -/
def primesList (N : Nat) : List Nat :=
  flaggedList primeB 2 N

/-- Invariant of the sweep loop at candidate `k`: a position `i ≤ N` is
already marked composite exactly when some prime below `k` divides it and
its square does not exceed `i`. -/
def sweepInv (N k : Nat) (f : Nat → Bool) : Prop :=
  ∀ i, 2 ≤ i → i ≤ N → (f i = false ↔ ∃ p, Nat.Prime p ∧ p < k ∧ p * p ≤ i ∧ p ∣ i)

/-- No `std::size_t` computation wraps during a sieve run on `N`: the
vector size `N + 1` and every marking position `m + k` (where `k ≤ √N`
because of the sweep guard) stay below `2^w`, and `N ≥ 1` keeps the two
initial writes in range. -/
def wrapFree (w N : Nat) : Prop :=
  1 ≤ N ∧ N + Nat.sqrt N < 2 ^ w

/-- Sieve table over `[0, 10]` as it stands when the sweep reaches
candidate 3: even positions from 4 on are marked, everything else from 2
on is still flagged. -/
def flagsAfterTwo : Nat → Bool :=
  fun i => decide (2 ≤ i) && !(decide (2 ∣ i) && decide (4 ≤ i))

/-! ### Basic helper lemmas -/

theorem bool_eq_of_false_iff (a b : Bool) (h : a = false ↔ b = false) : a = b := by
  cases a <;> cases b <;> simp_all

theorem bool_eq_of_true_iff (a b : Bool) (h : a = true ↔ b = true) : a = b := by
  cases a <;> cases b <;> simp_all

/-- Discharges the wrap-free inequality from the crude bound `2N < 2^w`. -/
theorem add_sqrt_lt_of_double (w n : Nat) (h : 2 * n < 2 ^ w) :
    n + Nat.sqrt n < 2 ^ w := by
  have := Nat.sqrt_le_self n
  omega

theorem wrapFree_of_double (w N : Nat) (h1 : 1 ≤ N) (h2 : 2 * N < 2 ^ w) :
    wrapFree w N :=
  ⟨h1, add_sqrt_lt_of_double w N h2⟩

theorem wrapFree_succ_lt (w N : Nat) (hwf : wrapFree w N) : N + 1 < 2 ^ w := by
  obtain ⟨h1, h2⟩ := hwf
  have : 1 ≤ Nat.sqrt N := Nat.le_sqrt.2 (by omega)
  omega

/-- Characterisation of the marking loop on a wrap-free stretch
(`N + k < 2^w`, so `m + k` never wraps while `m ≤ N`): it completes, and
position `j` ends up `false` exactly when it was already `false` or it is
one of the positions `m, m+k, m+2k, …` up to `N`. -/
theorem markCore_ok (w N k : Nat) (hk : 0 < k) (hw : N + k < 2 ^ w) :
    ∀ (fuel m : Nat) (f : Nat → Bool), N + 2 ≤ m + fuel → 1 ≤ fuel →
      ∃ g, markCore w N k m f fuel = some g ∧
        ∀ j, (g j = false ↔ f j = false ∨ (m ≤ j ∧ j ≤ N ∧ k ∣ (j - m))) := by
  intro fuel
  induction fuel with
  | zero =>
    intro m f hmf h1
    exact absurd h1 (by omega)
  | succ fuel ih =>
    intro m f hmf h1
    by_cases hmN : m ≤ N
    · have hmod : (m + k) % 2 ^ w = m + k := Nat.mod_eq_of_lt (by omega)
      obtain ⟨g, hg, hiff⟩ := ih (m + k) (upd f m false) (by omega) (by omega)
      refine ⟨g, ?_, ?_⟩
      · simp only [markCore, if_pos hmN, hmod]
        exact hg
      · intro j
        rw [hiff j]
        by_cases hjm : j = m
        · subst hjm
          constructor
          · intro _
            exact Or.inr ⟨le_rfl, hmN, by simp⟩
          · intro _
            left
            simp [upd]
        · have key : (m + k ≤ j ∧ j ≤ N ∧ k ∣ (j - (m + k))) ↔
              (m ≤ j ∧ j ≤ N ∧ k ∣ (j - m)) := by
            constructor
            · rintro ⟨h1, h2, h3⟩
              refine ⟨by omega, h2, ?_⟩
              have he : j - m = (j - (m + k)) + k := by omega
              rw [he]
              exact dvd_add h3 dvd_rfl
            · rintro ⟨h1, h2, h3⟩
              have hlt : m < j := lt_of_le_of_ne h1 (Ne.symm hjm)
              have hk2 : k ≤ j - m := Nat.le_of_dvd (by omega) h3
              refine ⟨by omega, h2, ?_⟩
              have he : j - (m + k) = (j - m) - k := by omega
              rw [he]
              exact Nat.dvd_sub' h3 dvd_rfl
          rw [key]
          have hu : upd f m false j = f j := by simp [upd, hjm]
          rw [hu]
    · refine ⟨f, by simp only [markCore, if_neg hmN], ?_⟩
      intro j
      constructor
      · exact Or.inl
      · rintro (hf | ⟨hj1, hj2, _⟩)
        · exact hf
        · omega

/-- The marking loop with its actual fuel `2^w`, on a wrap-free stretch. -/
theorem markMultiples_ok (w N k : Nat) (hk : 0 < k) (hw : N + k < 2 ^ w)
    (m : Nat) (f : Nat → Bool) :
    ∃ g, markMultiples w N k m f = some g ∧
      ∀ j, (g j = false ↔ f j = false ∨ (m ≤ j ∧ j ≤ N ∧ k ∣ (j - m))) := by
  have hone : 1 ≤ 2 ^ w := Nat.one_le_two_pow
  exact markCore_ok w N k hk hw (2 ^ w) m f (by omega) hone

/-- A completed marking pass never touches positions below its start. -/
theorem mark_pres_below (f g : Nat → Bool) (a N k : Nat)
    (hiff : ∀ j, (g j = false ↔ f j = false ∨ (a ≤ j ∧ j ≤ N ∧ k ∣ (j - a))))
    (j : Nat) (hj : j < a) : g j = f j := by
  apply bool_eq_of_false_iff
  rw [hiff j]
  constructor
  · rintro (hx | ⟨hx, _, _⟩)
    · exact hx
    · omega
  · exact Or.inl

theorem flaggedList_nil (f : Nat → Bool) (k N : Nat) (h : N < k) :
    flaggedList f k N = [] := by
  unfold flaggedList
  have hc : N + 1 - k = 0 := by omega
  rw [hc]
  rfl

theorem flaggedList_cons (f : Nat → Bool) (k N : Nat) (h : k ≤ N) :
    flaggedList f k N =
      if f k then k :: flaggedList f (k + 1) N else flaggedList f (k + 1) N := by
  unfold flaggedList
  have hc : N + 1 - k = (N + 1 - (k + 1)) + 1 := by omega
  rw [hc]
  rfl

theorem flaggedCore_congr (f g : Nat → Bool) (c : Nat) :
    ∀ k, (∀ j, k ≤ j → j < k + c → f j = g j) →
      flaggedCore f k c = flaggedCore g k c := by
  induction c with
  | zero => intro k _; rfl
  | succ c ih =>
    intro k h
    have hk : f k = g k := h k le_rfl (by omega)
    have hrest := ih (k + 1) (fun j h1 h2 => h j (by omega) (by omega))
    simp only [flaggedCore, hk, hrest]

theorem flaggedList_congr (f g : Nat → Bool) (k N : Nat)
    (h : ∀ j, k ≤ j → j ≤ N → f j = g j) :
    flaggedList f k N = flaggedList g k N := by
  unfold flaggedList
  exact flaggedCore_congr f g (N + 1 - k) k (fun j h1 h2 => h j h1 (by omega))

theorem flaggedCore_mem (f : Nat → Bool) (c : Nat) :
    ∀ k x, x ∈ flaggedCore f k c ↔ (k ≤ x ∧ x < k + c ∧ f x = true) := by
  induction c with
  | zero => intro k x; simp [flaggedCore]; omega
  | succ c ih =>
    intro k x
    by_cases hf : f k
    · simp only [flaggedCore, hf, if_true, List.mem_cons, ih (k + 1) x]
      constructor
      · rintro (rfl | ⟨h1, h2, h3⟩)
        · exact ⟨le_rfl, by omega, hf⟩
        · exact ⟨by omega, by omega, h3⟩
      · rintro ⟨h1, h2, h3⟩
        by_cases hxk : x = k
        · exact Or.inl hxk
        · exact Or.inr ⟨by omega, by omega, h3⟩
    · simp only [flaggedCore, hf, Bool.false_eq_true, if_false, ih (k + 1) x]
      constructor
      · rintro ⟨h1, h2, h3⟩
        exact ⟨by omega, by omega, h3⟩
      · rintro ⟨h1, h2, h3⟩
        have hxk : x ≠ k := by
          rintro rfl
          rw [h3] at hf
          exact hf rfl
        exact ⟨by omega, by omega, h3⟩

theorem flaggedList_mem (f : Nat → Bool) (k N x : Nat) :
    x ∈ flaggedList f k N ↔ (k ≤ x ∧ x ≤ N ∧ f x = true) := by
  unfold flaggedList
  rw [flaggedCore_mem]
  constructor <;> rintro ⟨h1, h2, h3⟩ <;> exact ⟨by omega, by omega, h3⟩

theorem flaggedCore_sorted (f : Nat → Bool) (c : Nat) :
    ∀ k, List.Sorted (· < ·) (flaggedCore f k c) := by
  induction c with
  | zero => intro k; simp [flaggedCore]
  | succ c ih =>
    intro k
    by_cases hf : f k
    · simp only [flaggedCore, hf, if_true]
      rw [List.sorted_cons]
      refine ⟨fun b hb => ?_, ih (k + 1)⟩
      have := (flaggedCore_mem f c (k + 1) b).1 hb
      omega
    · simp only [flaggedCore, hf, Bool.false_eq_true, if_false]
      exact ih (k + 1)

theorem flaggedList_sorted (f : Nat → Bool) (k N : Nat) :
    List.Sorted (· < ·) (flaggedList f k N) :=
  flaggedCore_sorted f (N + 1 - k) k

theorem flaggedCore_length_le (f : Nat → Bool) (c : Nat) :
    ∀ k, (flaggedCore f k c).length ≤ c := by
  induction c with
  | zero => intro k; simp [flaggedCore]
  | succ c ih =>
    intro k
    by_cases hf : f k
    · simp only [flaggedCore, hf, if_true, List.length_cons]
      exact Nat.succ_le_succ (ih (k + 1))
    · simp only [flaggedCore, hf, Bool.false_eq_true, if_false]
      exact le_trans (ih (k + 1)) (by omega)

theorem flaggedList_length_le (f : Nat → Bool) (k N : Nat) :
    (flaggedList f k N).length ≤ N + 1 - k :=
  flaggedCore_length_le f (N + 1 - k) k

/-- The hand-rolled trial-division test agrees with `Nat.Prime`. -/
theorem primeB_iff (p : Nat) : primeB p = true ↔ Nat.Prime p := by
  rw [Nat.prime_def_lt]
  unfold primeB
  simp only [Bool.and_eq_true, decide_eq_true_eq, List.all_eq_true, List.mem_range,
    Bool.or_eq_true, ne_eq]
  constructor
  · rintro ⟨h2, hall⟩
    refine ⟨h2, fun m hm hdvd => ?_⟩
    rcases hall m hm with hm2 | hmod
    · interval_cases m
      · exfalso
        have := Nat.eq_zero_of_zero_dvd hdvd
        omega
      · rfl
    · exfalso
      exact hmod ((Nat.mod_eq_zero_of_dvd hdvd))
  · rintro ⟨h2, hall⟩
    refine ⟨h2, fun d hd => ?_⟩
    by_cases hd2 : d < 2
    · exact Or.inl hd2
    · refine Or.inr (fun hmod => ?_)
      have hdvd : d ∣ p := Nat.dvd_of_mod_eq_zero hmod
      have := hall d hd hdvd
      omega

/-! ### Correctness of the sweep on the wrap-free domain -/

/-- Exit argument of the sweep loop: once no prime below `b` can mark
anything new and `N < b * b`, the invariant forces the flags on `[2, N]`
to coincide with primality. -/
theorem sieve_exit (N b : Nat) (f : Nat → Bool) ( _hb : 2 ≤ b) (hNb : N < b * b)
    (hinv : sweepInv N b f) :
    ∀ i, 2 ≤ i → i ≤ N → (f i = true ↔ Nat.Prime i) := by
  intro i h2i hiN
  by_cases hpi : Nat.Prime i
  · refine iff_of_true ?_ hpi
    by_contra hft
    have hfi : f i = false := by
      cases hfe : f i
      · rfl
      · exact absurd hfe hft
    obtain ⟨p, pp, plt, psq, pdvd⟩ := (hinv i h2i hiN).1 hfi
    rcases Nat.Prime.eq_one_or_self_of_dvd hpi p pdvd with h1 | hs
    · rw [h1] at pp
      exact Nat.not_prime_one pp
    · subst hs
      nlinarith [pp.two_le]
  · refine iff_of_false ?_ hpi
    have h1 : i ≠ 1 := by omega
    have hpf := Nat.minFac_prime h1
    have hdvd := Nat.minFac_dvd i
    have hsq : Nat.minFac i * Nat.minFac i ≤ i := by
      have := Nat.minFac_sq_le_self (by omega) hpi
      rwa [pow_two] at this
    have hplt : Nat.minFac i < b := by
      by_contra hge
      push_neg at hge
      have : b * b ≤ Nat.minFac i * Nat.minFac i := Nat.mul_le_mul hge hge
      omega
    have hfa := (hinv i h2i hiN).2 ⟨Nat.minFac i, hpf, hplt, hsq, hdvd⟩
    simp [hfa]

/-- A candidate that reaches the sweep still flagged is prime. -/
theorem flag_prime (N k : Nat) (f : Nat → Bool) (hinv : sweepInv N k f)
    (hk : 2 ≤ k) (hkN : k ≤ N) (hf : f k = true) : Nat.Prime k := by
  by_contra hnp
  have hpf := Nat.minFac_prime (show k ≠ 1 by omega)
  have hdvd := Nat.minFac_dvd k
  have hsq : Nat.minFac k * Nat.minFac k ≤ k := by
    have := Nat.minFac_sq_le_self (show 0 < k by omega) hnp
    rwa [pow_two] at this
  have h2p : 2 ≤ Nat.minFac k := hpf.two_le
  have hlt : Nat.minFac k < k := by nlinarith
  have hfalse := (hinv k hk hkN).2 ⟨Nat.minFac k, hpf, hlt, hsq, hdvd⟩
  rw [hf] at hfalse
  simp at hfalse

/-- A completed marking pass for a still-flagged (hence prime) candidate
`k`, started at `k * k`, re-establishes the invariant for `k + 1`. -/
theorem sweepInv_succ_prime (N k : Nat) (hk : 2 ≤ k)
    (f g : Nat → Bool) (hinv : sweepInv N k f) (hkp : Nat.Prime k)
    (hiff : ∀ j, (g j = false ↔ f j = false ∨ (k * k ≤ j ∧ j ≤ N ∧ k ∣ (j - k * k)))) :
    sweepInv N (k + 1) g := by
  intro i h2i hiN
  rw [hiff i]
  constructor
  · rintro (hfi | ⟨hm1, hm2, hm3⟩)
    · obtain ⟨p, pp, plt, psq, pdvd⟩ := (hinv i h2i hiN).1 hfi
      exact ⟨p, pp, by omega, psq, pdvd⟩
    · refine ⟨k, hkp, by omega, hm1, ?_⟩
      have hsum : k ∣ (i - k * k) + (k * k) := dvd_add hm3 (dvd_mul_right k k)
      rwa [Nat.sub_add_cancel hm1] at hsum
  · rintro ⟨p, pp, plt1, psq, pdvd⟩
    by_cases hpk : p < k
    · exact Or.inl ((hinv i h2i hiN).2 ⟨p, pp, hpk, psq, pdvd⟩)
    · have hpe : p = k := by omega
      subst hpe
      exact Or.inr ⟨psq, hiN, Nat.dvd_sub' pdvd (dvd_mul_right p p)⟩

/-- Skipping an already-unflagged (hence composite) candidate `k`
preserves the invariant for `k + 1`. -/
theorem sweepInv_succ_notprime (N k : Nat) (hk : 2 ≤ k) (hkN : k ≤ N)
    (f : Nat → Bool) (hinv : sweepInv N k f) (hf : f k = false) :
    sweepInv N (k + 1) f := by
  intro i h2i hiN
  rw [hinv i h2i hiN]
  constructor
  · rintro ⟨p, pp, plt, psq, pdvd⟩
    exact ⟨p, pp, by omega, psq, pdvd⟩
  · rintro ⟨p, pp, plt, psq, pdvd⟩
    by_cases hpk : p < k
    · exact ⟨p, pp, hpk, psq, pdvd⟩
    · exfalso
      have hpe : p = k := by omega
      subst hpe
      obtain ⟨q, qq, qlt, qsq, qdvd⟩ := (hinv p hk hkN).1 hf
      rcases Nat.Prime.eq_one_or_self_of_dvd pp q qdvd with h1 | hs
      · rw [h1] at qq
        exact Nat.not_prime_one qq
      · omega

/-- Master lemma for the sweep loop on the wrap-free domain
(`N + √N < 2^w`): started at candidate `k ≥ 2` with enough fuel, a
bounded counter and the invariant, the loop completes, (i) leaves the
sieve table equal to primality on `[2, N]`, (ii) never rewrites positions
below `k`, (iii) exits with a candidate at least `k`, keeping the counter
budget, and (iv) its counter gain is the number of finally-flagged
positions in `[k, exit)`. -/
theorem sweepCore_main (w N : Nat) (hNw : N + Nat.sqrt N < 2 ^ w) :
    ∀ (fuel k np : Nat) (f : Nat → Bool), 2 ≤ k → N + 2 ≤ k + fuel → 1 ≤ fuel →
      np + (N + 1 - k) < 2 ^ w → sweepInv N k f →
      ∃ f2 np2 k2,
        sweepCore w N f np k fuel = some (f2, np2, k2) ∧
        (∀ i, 2 ≤ i → i ≤ N → (f2 i = true ↔ Nat.Prime i)) ∧
        (∀ j, j < k → f2 j = f j) ∧
        k ≤ k2 ∧
        np2 + (N + 1 - k2) ≤ np + (N + 1 - k) ∧
        np2 + (flaggedList f2 k2 N).length = np + (flaggedList f2 k N).length := by
  intro fuel
  induction fuel with
  | zero =>
    intro k np f hk hfuel h1 hnp hinv
    exact absurd h1 (by omega)
  | succ fuel ih =>
    intro k np f hk hfuel h1 hnp hinv
    by_cases hg : sweepGuard N k = true
    · have hgle : k ≤ N / k := by simpa [sweepGuard] using hg
      have hkk : k * k ≤ N := (Nat.le_div_iff_mul_le (by omega)).1 hgle
      have hkN : k ≤ N := by nlinarith
      have hksq : k ≤ Nat.sqrt N := Nat.le_sqrt.2 hkk
      have hN4 : 4 ≤ N := le_trans (by nlinarith) hkk
      have hkmod : (k + 1) % 2 ^ w = k + 1 := Nat.mod_eq_of_lt (by omega)
      have hkltkk : k < k * k := by nlinarith
      by_cases hf : f k = true
      · have hkkmod : (k * k) % 2 ^ w = k * k := Nat.mod_eq_of_lt (by omega)
        have hnpmod : (np + 1) % 2 ^ w = np + 1 := Nat.mod_eq_of_lt (by omega)
        have hkp : Nat.Prime k := flag_prime N k f hinv hk hkN hf
        obtain ⟨g, hgeq, hgiff⟩ := markMultiples_ok w N k (by omega) (by omega) (k * k) f
        have hinv2 : sweepInv N (k + 1) g := sweepInv_succ_prime N k hk f g hinv hkp hgiff
        have hred : sweepCore w N f np k (fuel + 1)
            = sweepCore w N g ((np + 1) % 2 ^ w) ((k + 1) % 2 ^ w) fuel := by
          simp only [sweepCore, if_pos hg, if_pos hf, hkkmod]
          rw [hgeq]
          rfl
        rw [hred, hkmod, hnpmod]
        obtain ⟨f2, np2, k2, heq, H1, H2, H3, H4, H5⟩ :=
          ih (k + 1) (np + 1) g (by omega) (by omega) (by omega) (by omega) hinv2
        refine ⟨f2, np2, k2, heq, H1, ?_, by omega, by omega, ?_⟩
        · intro j hj
          exact (H2 j (by omega)).trans (mark_pres_below f g (k * k) N k hgiff j (by omega))
        · have hf2k : f2 k = true :=
            (H2 k (by omega)).trans ((mark_pres_below f g (k * k) N k hgiff k hkltkk).trans hf)
          rw [H5, flaggedList_cons f2 k N hkN, if_pos hf2k, List.length_cons]
          omega
      · have hf0 : f k = false := by
          cases hfk : f k
          · rfl
          · exact absurd hfk hf
        have hinv2 := sweepInv_succ_notprime N k hk hkN f hinv hf0
        have hred : sweepCore w N f np k (fuel + 1)
            = sweepCore w N f np ((k + 1) % 2 ^ w) fuel := by
          simp only [sweepCore, if_pos hg]
          rw [if_neg hf]
        rw [hred, hkmod]
        obtain ⟨f2, np2, k2, heq, H1, H2, H3, H4, H5⟩ :=
          ih (k + 1) np f (by omega) (by omega) (by omega) (by omega) hinv2
        refine ⟨f2, np2, k2, heq, H1, fun j hj => H2 j (by omega), by omega, by omega, ?_⟩
        have hf2k : f2 k = false := (H2 k (by omega)).trans hf0
        rw [H5, flaggedList_cons f2 k N hkN, hf2k]
        simp
    · have hred : sweepCore w N f np k (fuel + 1) = some (f, np, k) := by
        simp only [sweepCore, if_neg hg]
      rw [hred]
      have hnk : N < k * k := by
        by_contra hc
        push_neg at hc
        refine hg ?_
        simp only [sweepGuard, decide_eq_true_eq]
        exact (Nat.le_div_iff_mul_le (show 0 < k by omega)).2 hc
      exact ⟨f, np, k, rfl, sieve_exit N k f hk hnk hinv, fun j _ => rfl, le_rfl, le_rfl, rfl⟩

/-- The invariant holds at loop entry (`k = 2`, fresh flags). -/
theorem initFlags_inv (N : Nat) : sweepInv N 2 (upd (upd (fun _ => true) 0 false) 1 false) := by
  intro i h2 hN
  constructor
  · intro hf
    exfalso
    have h0 : i ≠ 0 := by omega
    have h1 : i ≠ 1 := by omega
    simp [upd, h0, h1] at hf
  · rintro ⟨p, pp, hp2, _, _⟩
    have := pp.two_le
    omega

/-- On `1 ≤ N` with an unwrapped size `N + 1`, the two checked writes of
lines 49-50 succeed and produce the fresh sieve table. -/
theorem initFlags_ok (w N : Nat) (h1 : 1 ≤ N) (h2 : N + 1 < 2 ^ w) :
    initFlags w N = some (upd (upd (fun _ => true) 0 false) 1 false) := by
  have hS : (N + 1) % 2 ^ w = N + 1 := Nat.mod_eq_of_lt h2
  simp only [initFlags, updChk, hS]
  rw [if_pos (show (0:Nat) < N + 1 by omega)]
  simp only [Option.bind]
  rw [if_pos (show (1:Nat) < N + 1 by omega)]

/-- The tail counting loop on a wrap-free stretch: it completes and adds
the number of flagged positions in `[k, N]` to the running counter. -/
theorem tailCore_ok (w N : Nat) (f : Nat → Bool) (hNw : N + 1 < 2 ^ w) :
    ∀ (fuel np k : Nat), N + 2 ≤ k + fuel → 1 ≤ fuel →
      np + (flaggedList f k N).length < 2 ^ w →
      tailCore w N f np k fuel = some (np + (flaggedList f k N).length) := by
  intro fuel
  induction fuel with
  | zero =>
    intro np k h1 h0 hb
    exact absurd h0 (by omega)
  | succ fuel ih =>
    intro np k h1 h0 hb
    by_cases hkN : k ≤ N
    · have hk1 : (k + 1) % 2 ^ w = k + 1 := Nat.mod_eq_of_lt (by omega)
      by_cases hf : f k = true
      · have hlen : (flaggedList f k N).length = (flaggedList f (k + 1) N).length + 1 := by
          rw [flaggedList_cons f k N hkN, if_pos hf, List.length_cons]
        have hnp1 : (np + 1) % 2 ^ w = np + 1 := Nat.mod_eq_of_lt (by omega)
        simp only [tailCore, if_pos hkN, if_pos hf, hk1, hnp1]
        rw [ih (np + 1) (k + 1) (by omega) (by omega) (by omega)]
        congr 1
        omega
      · have hlen : (flaggedList f k N).length = (flaggedList f (k + 1) N).length := by
          rw [flaggedList_cons f k N hkN, if_neg hf]
        simp only [tailCore, if_pos hkN, if_neg hf, hk1]
        rw [ih np (k + 1) (by omega) (by omega) (by omega)]
        congr 1
        omega
    · simp only [tailCore, if_neg hkN]
      rw [flaggedList_nil f k N (by omega)]
      simp

/-- The debug recount on a wrap-free stretch: same accumulation. -/
theorem checkCore_ok (w N : Nat) (f : Nat → Bool) (hNw : N + 1 < 2 ^ w) :
    ∀ (fuel c i : Nat), N + 2 ≤ i + fuel → 1 ≤ fuel →
      c + (flaggedList f i N).length < 2 ^ w →
      checkCore w N f c i fuel = some (c + (flaggedList f i N).length) := by
  intro fuel
  induction fuel with
  | zero =>
    intro c i h1 h0 hb
    exact absurd h0 (by omega)
  | succ fuel ih =>
    intro c i h1 h0 hb
    by_cases hiN : i ≤ N
    · have hi1 : (i + 1) % 2 ^ w = i + 1 := Nat.mod_eq_of_lt (by omega)
      by_cases hf : f i = true
      · have hlen : (flaggedList f i N).length = (flaggedList f (i + 1) N).length + 1 := by
          rw [flaggedList_cons f i N hiN, if_pos hf, List.length_cons]
        have hc1 : (c + 1) % 2 ^ w = c + 1 := Nat.mod_eq_of_lt (by omega)
        simp only [checkCore, if_pos hiN, if_pos hf, hi1, hc1]
        rw [ih (c + 1) (i + 1) (by omega) (by omega) (by omega)]
        congr 1
        omega
      · have hlen : (flaggedList f i N).length = (flaggedList f (i + 1) N).length := by
          rw [flaggedList_cons f i N hiN, if_neg hf]
        simp only [checkCore, if_pos hiN, if_neg hf, hi1]
        rw [ih c (i + 1) (by omega) (by omega) (by omega)]
        congr 1
        omega
    · simp only [checkCore, if_neg hiN]
      rw [flaggedList_nil f i N (by omega)]
      simp

/-- The extraction loop, run with a consistent target count on a
wrap-free stretch, returns all flagged positions in `[k, N]` in order. -/
theorem extractCore_ok (w : Nat) (f : Nat → Bool) (N np : Nat) (hNw : N + 1 < 2 ^ w)
    (hnpw : np < 2 ^ w) :
    ∀ (fuel m k : Nat) (acc : List Nat), N + 2 ≤ k + fuel → 1 ≤ fuel →
      np = m + (flaggedList f k N).length →
      extractCore w f N np m k acc fuel = some (acc ++ flaggedList f k N) := by
  intro fuel
  induction fuel with
  | zero =>
    intro m k acc h1 h0 hnp
    exact absurd h0 (by omega)
  | succ fuel ih =>
    intro m k acc h1 h0 hnp
    by_cases hmn : m < np
    · have hkN : k ≤ N := by
        by_contra hkN
        rw [flaggedList_nil f k N (by omega)] at hnp
        simp at hnp
        omega
      have hk1 : (k + 1) % 2 ^ w = k + 1 := Nat.mod_eq_of_lt (by omega)
      by_cases hf : f k = true
      · have hm1 : (m + 1) % 2 ^ w = m + 1 := Nat.mod_eq_of_lt (by omega)
        have hcons : flaggedList f k N = k :: flaggedList f (k + 1) N := by
          rw [flaggedList_cons f k N hkN, if_pos hf]
        rw [hcons] at hnp
        simp only [List.length_cons] at hnp
        simp only [extractCore, if_pos hmn, if_pos hkN, if_pos hf, hk1, hm1]
        rw [ih (m + 1) (k + 1) (acc ++ [k]) (by omega) (by omega) (by omega), hcons]
        simp
      · have hcons : flaggedList f k N = flaggedList f (k + 1) N := by
          rw [flaggedList_cons f k N hkN, if_neg hf]
        rw [hcons] at hnp
        simp only [extractCore, if_pos hmn, if_pos hkN, if_neg hf, hk1]
        rw [ih m (k + 1) acc (by omega) (by omega) hnp, hcons]
    · simp only [extractCore, if_neg hmn]
      have hlen : (flaggedList f k N).length = 0 := by omega
      rw [List.length_eq_zero] at hlen
      rw [hlen]
      simp

/-- On the wrap-free domain, array construction and the sweep complete,
with a prime-correct final table and a consistent counter. -/
theorem sweepOut_ok (w N : Nat) (hwf : wrapFree w N) :
    ∃ f np k, sweepOut w N = some (f, np, k) ∧
      (∀ i, 2 ≤ i → i ≤ N → (f i = true ↔ Nat.Prime i)) ∧
      2 ≤ k ∧
      np + (N + 1 - k) ≤ N - 1 ∧
      np + (flaggedList f k N).length = (flaggedList f 2 N).length := by
  obtain ⟨h1, h2⟩ := hwf
  have hN1 : N + 1 < 2 ^ w := wrapFree_succ_lt w N ⟨h1, h2⟩
  obtain ⟨f2, np2, k2, heq, H1, H2, H3, H4, H5⟩ :=
    sweepCore_main w N h2 (2 ^ w) 2 0 (upd (upd (fun _ => true) 0 false) 1 false)
      le_rfl (by omega) (by omega) (by omega) (initFlags_inv N)
  refine ⟨f2, np2, k2, ?_, H1, H3, by omega, by omega⟩
  simp only [sweepOut, initFlags_ok w N h1 hN1, Option.bind]
  exact heq

/-- On the wrap-free domain, the sieve and both counting phases complete;
the final counter is exactly the number of primes in `[2, N]`, and the
final table agrees with the trial-division test there. -/
theorem sieveAndCount_ok (w N : Nat) (hwf : wrapFree w N) :
    ∃ f np, sieveAndCount w N = some (f, np) ∧
      (∀ i, 2 ≤ i → i ≤ N → (f i = true ↔ Nat.Prime i)) ∧
      flaggedList f 2 N = primesList N ∧
      np = (primesList N).length ∧
      np < 2 ^ w := by
  have hN1 : N + 1 < 2 ^ w := wrapFree_succ_lt w N hwf
  obtain ⟨f, np, k, heq, hiff, hk2, hbud, hcnt⟩ := sweepOut_ok w N hwf
  have hlen : (flaggedList f k N).length ≤ N + 1 - k := flaggedList_length_le f k N
  have hfl : flaggedList f 2 N = primesList N := by
    unfold primesList
    exact flaggedList_congr _ _ 2 N fun j ha hb =>
      bool_eq_of_true_iff _ _ (by rw [hiff j ha hb, primeB_iff])
  have hnpw : np + (flaggedList f k N).length < 2 ^ w := by omega
  have htail := tailCore_ok w N f hN1 (2 ^ w) np k (by omega) Nat.one_le_two_pow hnpw
  refine ⟨f, np + (flaggedList f k N).length, ?_, hiff, hfl, ?_, hnpw⟩
  · simp only [sieveAndCount, heq, Option.bind]
    rw [htail]
  · rw [← hfl]
    exact hcnt

/-- Wrap-free master theorem: when no `std::size_t` computation wraps
during the run on `N = n % 2^w`, `primes_up_to` returns (successfully)
the increasing list of all primes up to `N`. -/
theorem primes_up_to_ok (w n : Nat) (h2 : 2 ≤ n) (hwf : wrapFree w (n % 2 ^ w)) :
    primes_up_to w n = some (primesList (n % 2 ^ w)) := by
  obtain ⟨f, np, hsc, hiff, hfl, hnp, hnpw⟩ := sieveAndCount_ok w (n % 2 ^ w) hwf
  have hN1 : n % 2 ^ w + 1 < 2 ^ w := wrapFree_succ_lt w (n % 2 ^ w) hwf
  have hext := extractCore_ok w f (n % 2 ^ w) np hN1 hnpw (2 ^ w) 0 2 []
    (by omega) Nat.one_le_two_pow (by rw [hnp, ← hfl]; omega)
  simp only [primes_up_to, if_neg (show ¬ n < 2 by omega), hsc, Option.bind, extractLoop]
  rw [hext, List.nil_append, hfl]

/-- The sieve table `flagsAfterTwo` satisfies the sweep invariant at
`N = 10`, `k = 3`. -/
theorem flagsAfterTwo_inv : sweepInv 10 3 flagsAfterTwo := by
  intro i h2 h10
  interval_cases i <;>
    first
      | exact iff_of_true (by decide) ⟨2, Nat.prime_two, by decide, by decide, by decide⟩
      | (refine iff_of_false (by decide) ?_
         rintro ⟨p, pp, h3, hsq, hdvd⟩
         have h2p := pp.two_le
         have hp2 : p = 2 := by omega
         subst hp2
         omega)

/-! ### Claims -/

/-- C1 counterexample: with a 6-bit `std::size_t` and the representable
input `n = 60`, the marking pass for `k = 5` wraps (`60 + 5 ≡ 1 (mod 64)`)
and falsely unmarks the primes 11, 31 and 41, so the function terminates
with a list that omits the prime 11. -/
theorem primes_up_to_correct_cex :
    (60:Nat) < 2 ^ 6 ∧
    primes_up_to 6 60 = some [2, 3, 5, 7, 13, 17, 19, 23, 29, 37, 43, 47, 53, 59] ∧
    Nat.Prime 11 ∧
    (11:Nat) ∉ [2, 3, 5, 7, 13, 17, 19, 23, 29, 37, 43, 47, 53, 59] :=
  ⟨by decide, by decide, by norm_num, by decide⟩

/-- C1 (amended): for every `n` that is representable and wrap-free
(`n + ⌊√n⌋ < 2^w`, so no `std::size_t` computation of the run wraps),
`primes_up_to` returns a strictly increasing sequence containing exactly
the primes `p` with `2 ≤ p ≤ n`, each exactly once and no composite. -/
theorem primes_up_to_correct (w n : Nat) (h : n + Nat.sqrt n < 2 ^ w) :
    ∃ l, primes_up_to w n = some l ∧
      List.Sorted (· < ·) l ∧
      (∀ x, x ∈ l ↔ (2 ≤ x ∧ x ≤ n ∧ Nat.Prime x)) ∧
      (∀ x, Nat.Prime x → x ≤ n → l.count x = 1) := by
  by_cases h2 : n < 2
  · refine ⟨[], by simp only [primes_up_to, if_pos h2], by simp, ?_, ?_⟩
    · intro x
      simp only [List.not_mem_nil, false_iff]
      rintro ⟨hx1, hx2, _⟩
      omega
    · intro x hx hxn
      have := hx.two_le
      omega
  · have hmod : n % 2 ^ w = n := Nat.mod_eq_of_lt (by omega)
    have hwf : wrapFree w (n % 2 ^ w) := by
      rw [hmod]
      exact ⟨by omega, h⟩
    rw [primes_up_to_ok w n (by omega) hwf, hmod]
    refine ⟨primesList n, rfl, flaggedList_sorted primeB 2 n, ?_, ?_⟩
    · intro x
      rw [primesList, flaggedList_mem, primeB_iff]
    · intro x hx hxn
      have hmem : x ∈ primesList n := by
        rw [primesList, flaggedList_mem, primeB_iff]
        exact ⟨hx.two_le, hxn, hx⟩
      exact List.count_eq_one_of_mem (flaggedList_sorted primeB 2 n).nodup hmem

/-- Witness for the amended C1 at `w = 64`, `n = 10`. -/
theorem primes_up_to_correct_w :
    (10:Nat) + Nat.sqrt 10 < 2 ^ 64 ∧
      ∃ l, primes_up_to 64 10 = some l ∧
        List.Sorted (· < ·) l ∧
        (∀ x, x ∈ l ↔ (2 ≤ x ∧ x ≤ 10 ∧ Nat.Prime x)) ∧
        (∀ x, Nat.Prime x → x ≤ 10 → l.count x = 1) := by
  have h : (10:Nat) + Nat.sqrt 10 < 2 ^ 64 := add_sqrt_lt_of_double 64 10 (by norm_num)
  exact ⟨h, primes_up_to_correct 64 10 h⟩

/-- C2 counterexample: with a 64-bit `std::size_t` and an input of a wider
unsigned type with value `2^64 + 1`, the cast on line 42 yields `N = 1`,
so the result is the empty sequence although `n ≥ 2` — refuting
"the result is empty iff `n < 2`" over all inputs. -/
theorem primes_up_to_empty_iff_cex :
    primes_up_to 64 (2 ^ 64 + 1) = some [] ∧ ¬ ((2:Nat) ^ 64 + 1 < 2) :=
  ⟨by decide, by decide⟩

/-- C2 (amended): for representable, wrap-free inputs
(`n + ⌊√n⌋ < 2^w`) the result is empty iff `n < 2`; in particular `n = 0`
and `n = 1` return the empty sequence with no runtime error. -/
theorem primes_up_to_empty_iff (w n : Nat) (h : n + Nat.sqrt n < 2 ^ w) :
    (primes_up_to w n = some [] ↔ n < 2) ∧
    primes_up_to w 0 = some [] ∧ primes_up_to w 1 = some [] := by
  refine ⟨?_, rfl, rfl⟩
  by_cases h2 : n < 2
  · exact iff_of_true (by simp only [primes_up_to, if_pos h2]) h2
  · have hmod : n % 2 ^ w = n := Nat.mod_eq_of_lt (by omega)
    rw [primes_up_to_ok w n (by omega) (by rw [hmod]; exact ⟨by omega, h⟩), hmod]
    refine iff_of_false ?_ h2
    intro he
    have h2mem : 2 ∈ primesList n := by
      rw [primesList, flaggedList_mem, primeB_iff]
      exact ⟨le_rfl, by omega, Nat.prime_two⟩
    rw [Option.some.injEq] at he
    rw [he] at h2mem
    simp at h2mem

/-- Witness for the amended C2 at `w = 64`, `n = 7`. -/
theorem primes_up_to_empty_iff_w :
    (7:Nat) + Nat.sqrt 7 < 2 ^ 64 ∧
      ((primes_up_to 64 7 = some [] ↔ (7:Nat) < 2) ∧
        primes_up_to 64 0 = some [] ∧ primes_up_to 64 1 = some []) := by
  have h : (7:Nat) + Nat.sqrt 7 < 2 ^ 64 := add_sqrt_lt_of_double 64 7 (by norm_num)
  exact ⟨h, primes_up_to_empty_iff 64 7 h⟩

/-- C3: the concrete results for `n = 2`, `n = 10` and `n = 30`
(with a 64-bit `std::size_t`), by direct kernel evaluation of the
embedded function — these runs stay far below the wrap region. -/
theorem primes_up_to_examples :
    primes_up_to 64 2 = some [2] ∧
    primes_up_to 64 10 = some [2, 3, 5, 7] ∧
    primes_up_to 64 30 = some [2, 3, 5, 7, 11, 13, 17, 19, 23, 29] :=
  ⟨by decide, by decide, by decide⟩

/-- C4: the sweep-loop guard `k <= N / k` holds iff `k * k ≤ N`
(for positive `k`), and the divided value it compares satisfies
`N / k ≤ N`, so the guard only handles values bounded by `N` — unlike
`k * k`, which may exceed the value range. -/
theorem sweepGuard_iff (N k : Nat) (hk : 0 < k) :
    (sweepGuard N k = true ↔ k * k ≤ N) ∧ N / k ≤ N := by
  refine ⟨?_, Nat.div_le_self N k⟩
  rw [sweepGuard, decide_eq_true_eq]
  exact Nat.le_div_iff_mul_le hk

/-- Witness for C4 at `N = 10`, `k = 3`. -/
theorem sweepGuard_iff_w :
    (sweepGuard 10 3 = true ↔ 3 * 3 ≤ 10) ∧ 10 / 3 ≤ 10 :=
  sweepGuard_iff 10 3 (by decide)

/-- C5 counterexample: at `w = 6`, `N = 60` the sweep *completes* (the
wrapped `k = 5` marking pass exits after cycling once through the
residues `1 mod 5`), but the final sieve array is wrong: position 11 is
marked not-prime although 11 is prime and `11 ≤ 60`. -/
theorem sieve_correct_cex :
    (sweepOut 6 60).map (fun s => s.1 11) = some false ∧ Nat.Prime 11 ∧ (11:Nat) ≤ 60 :=
  ⟨by decide, by norm_num, by decide⟩

/-- C5 (amended): under the sweep invariant, every composite multiple of
a candidate `k` below `k * k` is already marked not-prime (it has a
smaller prime factor), so the inner loop may start at `k * k`; and on the
wrap-free domain the sweep completes with a sieve array that is `true`
exactly at the primes in `[2, N]`. -/
theorem sieve_invariant_and_correct :
    (∀ N k f, sweepInv N k f → 2 ≤ k →
        ∀ j, k ∣ j → j ≠ k → 2 ≤ j → j ≤ N → j < k * k → f j = false) ∧
    (∀ w N, wrapFree w N →
        ∃ f np k, sweepOut w N = some (f, np, k) ∧
          ∀ i, 2 ≤ i → i ≤ N → (f i = true ↔ Nat.Prime i)) := by
  constructor
  · intro N k f hinv hk j hdvd hne h2j hjN hjkk
    obtain ⟨t, ht⟩ := hdvd
    have ht2 : 2 ≤ t := by
      rcases Nat.lt_or_ge t 2 with hlt | hge
      · exfalso
        interval_cases t
        · rw [Nat.mul_zero] at ht
          omega
        · rw [Nat.mul_one] at ht
          omega
      · exact hge
    have hkt : k * t < k * k := by
      rw [← ht]
      exact hjkk
    have htk : t < k := Nat.lt_of_mul_lt_mul_left hkt
    have hj1 : j ≠ 1 := by omega
    have hpp := Nat.minFac_prime hj1
    have hpd := Nat.minFac_dvd j
    have htj : t ∣ j := ⟨k, by rw [ht, Nat.mul_comm]⟩
    have hple : Nat.minFac j ≤ t := Nat.minFac_le_of_dvd ht2 htj
    have hpsq : Nat.minFac j * Nat.minFac j ≤ j := by
      have hh : Nat.minFac j * Nat.minFac j ≤ k * t := Nat.mul_le_mul (by omega) hple
      rw [← ht] at hh
      exact hh
    exact (hinv j h2j hjN).2 ⟨Nat.minFac j, hpp, by omega, hpsq, hpd⟩
  · intro w N hwf
    obtain ⟨f, np, k, heq, hiff, _, _, _⟩ := sweepOut_ok w N hwf
    exact ⟨f, np, k, heq, hiff⟩

/-- Witness for C5: with the invariant at `N = 10`, `k = 3`, position 6
(a composite multiple of 3 below 9) is already marked; and the sweep at
`w = 64`, `N = 10` completes with a prime-correct table. -/
theorem sieve_invariant_and_correct_w :
    flagsAfterTwo 6 = false ∧
      (∃ f np k, sweepOut 64 10 = some (f, np, k) ∧
        ∀ i, 2 ≤ i → i ≤ 10 → (f i = true ↔ Nat.Prime i)) :=
  ⟨sieve_invariant_and_correct.1 10 3 flagsAfterTwo flagsAfterTwo_inv (by decide) 6
      (by decide) (by decide) (by decide) (by decide) (by decide),
    sieve_invariant_and_correct.2 64 10 (wrapFree_of_double 64 10 (by norm_num) (by norm_num))⟩

/-- C6 counterexample: at `w = 4`, `N = n = 14 ≥ 2` the `k = 2` marking
pass wraps (`14 + 2 ≡ 0 (mod 16)`) and cycles over the even residues
forever, so the sweep never finishes: no final counter and no recount
ever exist. -/
theorem n_primes_check_cex :
    (2:Nat) ≤ 14 ∧ (14:Nat) < 2 ^ 4 ∧ (sieveAndCount 4 14).isNone = true :=
  ⟨by decide, by decide, by decide⟩

/-- C6 (amended): on the wrap-free domain the sweep-plus-tail counter and
the debug recount both complete and are equal — the assertion
`check == n_primes` holds — and the counter is the exact number of primes
`≤ N`. -/
theorem n_primes_check (w N : Nat) ( _h2N : 2 ≤ N) (hwf : wrapFree w N) :
    ∃ f np, sieveAndCount w N = some (f, np) ∧
      checkLoop w N f = some np ∧ np = (primesList N).length := by
  obtain ⟨f, np, hsc, hiff, hfl, hnp, hnpw⟩ := sieveAndCount_ok w N hwf
  have hN1 : N + 1 < 2 ^ w := wrapFree_succ_lt w N hwf
  have hchk := checkCore_ok w N f hN1 (2 ^ w) 0 2 (by omega) Nat.one_le_two_pow
    (by rw [hfl, ← hnp]; omega)
  refine ⟨f, np, hsc, ?_, hnp⟩
  rw [checkLoop, hchk]
  congr 1
  rw [hfl]
  omega

/-- Witness for the amended C6 at `w = 64`, `N = 10`. -/
theorem n_primes_check_w :
    ∃ f np, sieveAndCount 64 10 = some (f, np) ∧
      checkLoop 64 10 f = some np ∧ np = (primesList 10).length :=
  n_primes_check 64 10 (by norm_num) (wrapFree_of_double 64 10 (by norm_num) (by norm_num))

/-- C7: determinism — two invocations with the same `n` yield element-wise
identical result sequences. -/
theorem primes_up_to_deterministic (w n : Nat) (l1 l2 : List Nat)
    (h1 : primes_up_to w n = some l1) (h2 : primes_up_to w n = some l2) :
    ∀ i, l1.get? i = l2.get? i := by
  rw [h1, Option.some.injEq] at h2
  intro i
  rw [h2]

/-- Witness for C7 at `w = 64`, `n = 10`, index 2. -/
theorem primes_up_to_deterministic_w :
    (primesList 10).get? 2 = (primesList 10).get? 2 :=
  primes_up_to_deterministic 64 10 (primesList 10) (primesList 10) (by decide) (by decide) 2

/-- C8 counterexample: runtime inputs on which the source never returns —
at `w = 4`, `n = 14` the wrapped `m += k` loops forever, and at `n = 15`
the vector size `N + 1` wraps to `0`, making the writes of lines 49-50
out of bounds. -/
theorem primes_up_to_total_cex :
    primes_up_to 4 14 = none ∧ primes_up_to 4 15 = none :=
  ⟨by decide, by decide⟩

/-- C8 (amended): for every input that is trivial (`n < 2`) or whose
truncated value is wrap-free, the function completes and returns a
result. -/
theorem primes_up_to_total (w n : Nat) (h : n < 2 ∨ wrapFree w (n % 2 ^ w)) :
    ∃ l, primes_up_to w n = some l := by
  by_cases h2 : n < 2
  · exact ⟨[], by simp only [primes_up_to, if_pos h2]⟩
  · rcases h with h | hwf
    · exact absurd h h2
    · exact ⟨primesList (n % 2 ^ w), primes_up_to_ok w n (by omega) hwf⟩

/-- Witness for the amended C8 at `w = 64`, `n = 10`. -/
theorem primes_up_to_total_w :
    ((10:Nat) < 2 ∨ wrapFree 64 (10 % 2 ^ 64)) ∧ ∃ l, primes_up_to 64 10 = some l := by
  have hm : (10:Nat) % 2 ^ 64 = 10 := by norm_num
  have h : (10:Nat) < 2 ∨ wrapFree 64 (10 % 2 ^ 64) :=
    Or.inr (by rw [hm]; exact wrapFree_of_double 64 10 (by norm_num) (by norm_num))
  exact ⟨h, primes_up_to_total 64 10 h⟩

/-- C9 counterexample: the truncation itself is faithful, but the
conclusion "silently returns the primes up to `n mod 2^w`" fails when the
truncated value lands in the wrap region: at `w = 4`, `n = 30` we get
`N = 14` and the source never terminates at all. -/
theorem primes_up_to_truncates_cex :
    (2:Nat) ^ 4 ≤ 30 ∧ primes_up_to 4 30 = none ∧
    primes_up_to 4 30 ≠ some (primesList (30 % 2 ^ 4)) :=
  ⟨by decide, by decide, by decide⟩

/-- C9 (amended): when the input exceeds the maximum of `std::size_t`,
the cast on line 42 truncates it modulo `2^w`; provided the truncated
value is wrap-free, the function silently returns the primes up to
`n mod 2^w` — a strictly smaller bound than `n`. -/
theorem primes_up_to_truncates (w n : Nat) (h2w : 2 ^ w ≤ n)
    (hwf : wrapFree w (n % 2 ^ w)) :
    primes_up_to w n = some (primesList (n % 2 ^ w)) ∧ n % 2 ^ w < n := by
  have h2 : 2 ≤ n := by
    rcases Nat.eq_zero_or_pos w with rfl | hw
    · rw [pow_zero, Nat.mod_one] at hwf
      exact absurd hwf.1 (by omega)
    · have h22 : 2 ≤ 2 ^ w := by
        calc 2 = 2 ^ 1 := (pow_one 2).symm
        _ ≤ 2 ^ w := Nat.pow_le_pow_right (by omega) hw
      omega
  refine ⟨primes_up_to_ok w n h2 hwf, ?_⟩
  have hpos : 0 < 2 ^ w := Nat.two_pow_pos w
  have := Nat.mod_lt n hpos
  omega

/-- Witness for the amended C9 at `w = 8`, `n = 2^8 + 30 = 286`. -/
theorem primes_up_to_truncates_w :
    (2:Nat) ^ 8 ≤ 286 ∧ wrapFree 8 (286 % 2 ^ 8) ∧
      (primes_up_to 8 286 = some (primesList (286 % 2 ^ 8)) ∧ (286:Nat) % 2 ^ 8 < 286) := by
  have hm : (286:Nat) % 2 ^ 8 = 30 := by norm_num
  have hwf : wrapFree 8 (286 % 2 ^ 8) := by
    rw [hm]
    exact wrapFree_of_double 8 30 (by norm_num) (by norm_num)
  exact ⟨by norm_num, hwf, primes_up_to_truncates 8 286 (by norm_num) hwf⟩

/-- C10 counterexample: at `w = 4`, `N = n = 14 ≥ 2` the sweep diverges,
so the run never reaches the extraction loop — there is no final sieve
array or counter for it to work on. -/
theorem extraction_safe_cex :
    (2:Nat) ≤ 14 ∧ (sweepOut 4 14).isNone = true ∧ (sieveAndCount 4 14).isNone = true :=
  ⟨by decide, by decide, by decide⟩

/-- C10 (amended): on the wrap-free domain the run reaches the extraction
loop, which returns successfully (`some`) — the defensive
`assert(k <= N)` holds before every sieve read — terminating after
writing exactly `n_primes` elements. -/
theorem extraction_safe (w N : Nat) ( _h2N : 2 ≤ N) (hwf : wrapFree w N) :
    ∃ f np l, sieveAndCount w N = some (f, np) ∧
      extractLoop w f N np 0 2 [] = some l ∧ l.length = np := by
  obtain ⟨f, np, hsc, hiff, hfl, hnp, hnpw⟩ := sieveAndCount_ok w N hwf
  have hN1 : N + 1 < 2 ^ w := wrapFree_succ_lt w N hwf
  have hext := extractCore_ok w f N np hN1 hnpw (2 ^ w) 0 2 []
    (by omega) Nat.one_le_two_pow (by rw [hnp, ← hfl]; omega)
  refine ⟨f, np, flaggedList f 2 N, hsc, ?_, ?_⟩
  · simp only [extractLoop]
    rw [hext, List.nil_append]
  · rw [hfl]
    exact hnp.symm

/-- Witness for the amended C10 at `w = 64`, `N = 10`. -/
theorem extraction_safe_w :
    ∃ f np l, sieveAndCount 64 10 = some (f, np) ∧
      extractLoop 64 f 10 np 0 2 [] = some l ∧ l.length = np :=
  extraction_safe 64 10 (by norm_num) (wrapFree_of_double 64 10 (by norm_num) (by norm_num))

end Sieve
